import Mathlib

/-!
Verification of the COO sparse-tensor engine described by this repository's
design document.  The repository's notebook (`src/L4_Sparse_tensor.ipynb`)
only calls into the framework's `tf.sparse` facility, so the engine itself
is not present under `src/`; every operation below is modelled from the
specification's component design (§3–§8), cross-checked against the concrete
execution outputs recorded in the notebook cells.  The one piece of code the
repository itself contains, the helper `pprint_sparse_tensor`, is embedded
verbatim from the notebook source.
-/

namespace TfSparse

/-- Error taxonomy of the design document (§7). -/
inductive SparseError where
  | ShapeMismatchError
  | RankMismatchError
  | IndexOutOfBoundsError
  | LengthMismatchError
  | DimensionMismatchError
  | AxisOutOfRangeError
  | EmptyReductionError
  deriving DecidableEq, Repr

/-- Modelled from the spec: the COO SparseTensor value type (§3): a shape,
a positionally aligned list of coordinate tuples and a list of scalar
values.  Duplicates and unsorted coordinates are permitted
pre-canonicalization.  Scalars are embedded as `Int` (the notebook's tensors
are int32; no value in the notebook approaches the 32-bit range, so no
wrap-around is observable). -/
structure SparseTensor where
  shape : List Nat
  indices : List (List Nat)
  values : List Int
  deriving DecidableEq, Repr

/-- A stored (coordinate, value) pair. -/
abbrev Entry := List Nat × Int

instance {ε α : Type} [DecidableEq ε] [DecidableEq α] : DecidableEq (Except ε α) := fun a b =>
  match a, b with
  | .ok x, .ok y => decidable_of_iff (x = y) (by simp)
  | .error x, .error y => decidable_of_iff (x = y) (by simp)
  | .ok _, .error _ => isFalse (by simp)
  | .error _, .ok _ => isFalse (by simp)

/-- Canonical (row-major) strict order on coordinates: lexicographic,
axis 0 most significant (§3 "Canonical order"). -/
def coordLt : List Nat → List Nat → Bool
  | [], [] => false
  | [], _ :: _ => true
  | _ :: _, [] => false
  | a :: as, b :: bs => a < b || (a == b && coordLt as bs)

/-- Modelled from the spec: one step of the Canonicalizer (§4.2).  Inserts an
entry into a canonically ordered entry list, merging an equal coordinate by
summing the values (duplicate-coordinate summation is the defined merge
policy). -/
def insertEntry (e : Entry) : List Entry → List Entry
  | [] => [e]
  | e1 :: rest =>
    if e.1 = e1.1 then (e1.1, e.2 + e1.2) :: rest
    else if coordLt e.1 e1.1 then e :: e1 :: rest
    else e1 :: insertEntry e rest

/-- The stored entries of a tensor, in canonical order with duplicate
coordinates merged by summation (§4.2). -/
def canonEntries (t : SparseTensor) : List Entry :=
  (t.indices.zip t.values).foldr insertEntry []

/-- Modelled from the spec: the Canonicalizer (§4.2).  Sorts entries into
canonical row-major order and merges duplicate coordinates by summing their
values; returns a new SparseTensor. -/
def canonicalize (t : SparseTensor) : SparseTensor :=
  ⟨t.shape, (canonEntries t).map Prod.fst, (canonEntries t).map Prod.snd⟩

/-- Componentwise bounds check: every coordinate component lies below the
corresponding dimension, and the coordinate has exactly one component per
axis (§3 invariant). -/
def inBoundsB : List Nat → List Nat → Bool
  | [], [] => true
  | a :: cs, d :: s => a < d && inBoundsB cs s
  | _, _ => false

/-- The §3 data-model invariant: aligned lengths and in-bounds coordinates
of the declared rank. -/
def wellFormed (t : SparseTensor) : Prop :=
  t.indices.length = t.values.length ∧ ∀ c ∈ t.indices, inBoundsB c t.shape = true

/-- Modelled from the spec: construction `make(shape, indices, values)`
(§4.1).  Validates rank, bounds and length alignment; performs no
deduplication or sorting. -/
def make (shape : List Nat) (indices : List (List Nat)) (values : List Int) :
    Except SparseError SparseTensor :=
  if indices.all (fun c => c.length == shape.length) then
    if indices.all (fun c => inBoundsB c shape) then
      if indices.length == values.length then .ok ⟨shape, indices, values⟩
      else .error .LengthMismatchError
    else .error .IndexOutOfBoundsError
  else .error .ShapeMismatchError

/-- Number of elements of a dense array of the given shape. -/
def prodShape : List Nat → Nat
  | [] => 1
  | d :: s => d * prodShape s

/-- Row-major linear position of a coordinate within a shape. -/
def linearize : List Nat → List Nat → Nat
  | _, [] => 0
  | [], _ :: _ => 0
  | _d :: s, a :: cs => a * prodShape s + linearize s cs

/-- Coordinate of a row-major linear position within a shape. -/
def delinearize : List Nat → Nat → List Nat
  | [], _ => []
  | _d :: s, k => k / prodShape s :: delinearize s (k % prodShape s)

/-- Modelled from the spec: the Dense Bridge's `to_dense` (§4.3).  A dense
array is embedded as its row-major flat value list (its shape travels
separately).  Allocates a zero-initialized array of `prodShape shape` cells,
canonicalizes first (summing duplicates), then scatters each entry at its
row-major position. -/
def to_dense (t : SparseTensor) : List Int :=
  (canonEntries t).foldl
    (fun d e => d.set (linearize t.shape e.1) e.2)
    (List.replicate (prodShape t.shape) 0)

/-- Row-major scan of a flat dense array starting at linear position `i`,
emitting one entry per element whose value is not the scalar zero (§4.3). -/
def fromDenseEntries (shape : List Nat) : Nat → List Int → List Entry
  | _, [] => []
  | i, v :: rest =>
    if v ≠ 0 then (delinearize shape i, v) :: fromDenseEntries shape (i + 1) rest
    else fromDenseEntries shape (i + 1) rest

/-- Modelled from the spec: the Dense Bridge's `from_dense` (§4.3).  Scans
the dense array (given as shape plus row-major flat values) in canonical
row-major order and emits one entry per nonzero element. -/
def from_dense (shape : List Nat) (d : List Int) : SparseTensor :=
  ⟨shape, (fromDenseEntries shape 0 d).map Prod.fst,
    (fromDenseEntries shape 0 d).map Prod.snd⟩

/-- Value an already-deduplicated entry list stores at a row-major linear
position (`0` when no entry sits there); the specification of what the
Dense Bridge's scatter writes into each cell. -/
def denseGet (s : List Nat) (es : List Entry) (k : Nat) : Int :=
  match es.find? (fun e => linearize s e.1 == k) with
  | some e => e.2
  | none => 0

/-- Sum of the values an entry list stores at one coordinate (the
dense-equivalent value of that coordinate, `0` when absent). -/
def valueAt (es : List Entry) (c : List Nat) : Int :=
  ((es.filter (fun e => e.1 == c)).map Prod.snd).sum

/-- Dense-equivalent value of a tensor at a coordinate. -/
def denseAt (t : SparseTensor) (c : List Nat) : Int :=
  valueAt (t.indices.zip t.values) c

/-- Modelled from the spec: the Elementwise Engine's `map_values` (§4.4).
Applies the scalar function to every stored value, keeping indices and shape
unchanged; entries not present are never touched. -/
def map_values (f : Int → Int) (t : SparseTensor) : SparseTensor :=
  ⟨t.shape, t.indices, t.values.map f⟩

/-- Modelled from the spec: union merge of two canonically ordered entry
lists (§4.4): a coordinate present in exactly one input is carried through,
a coordinate present in both gets the sum of the values.  Implemented by
ordered insertion of the first list's entries into the second, which on
canonical inputs produces the same canonically ordered union, with
duplicate-coordinate summation, as the linear merge walk. -/
def mergeUnion (la lb : List Entry) : List Entry :=
  la.foldr insertEntry lb

/-- Modelled from the spec: `add(a, b, τ)` (§4.4).  Requires equal shapes,
canonicalizes both inputs, merges the coordinate union, then drops any
output coordinate whose resulting value has magnitude `≤ τ` (so with the
default `τ = 0` an exact-zero sum is not retained). -/
def sparse_add_thresh (τ : Nat) (a b : SparseTensor) : Except SparseError SparseTensor :=
  if a.shape = b.shape then
    let es := (mergeUnion (canonEntries a) (canonEntries b)).filter
      (fun e => τ < e.2.natAbs)
    .ok ⟨a.shape, es.map Prod.fst, es.map Prod.snd⟩
  else .error .ShapeMismatchError

/-- `add` at the default elision threshold `τ = 0` (§4.4). -/
def sparse_add (a b : SparseTensor) : Except SparseError SparseTensor :=
  sparse_add_thresh 0 a b

/-- One accumulation step of the Matmul Engine (§4.5): for a stored entry
`(i, j, v)`, adds `v * d[j, :]` into output row `i`. -/
def matmulStep (d : List (List Int)) (out : List (List Int)) (e : Entry) :
    List (List Int) :=
  match e.1 with
  | [i, j] =>
    match out.get? i, d.get? j with
    | some r, some row => out.set i (List.zipWith (· + ·) r (row.map (fun x => e.2 * x)))
    | _, _ => out
  | _ => out

/-- Modelled from the spec: the Matmul Engine (§4.5).  For a sparse `[m, k]`
tensor and a dense `[k, p]` matrix (a list of `k` rows), accumulates
`v * d[j, :]` into output row `i` for each stored entry `(i, j, v)` of the
canonicalized input, in canonical order.  Fails with
`DimensionMismatchError` when the inner dimensions disagree or the sparse
operand is not rank 2. -/
def sparse_dense_matmul (s : SparseTensor) (d : List (List Int)) :
    Except SparseError (List (List Int)) :=
  match s.shape with
  | [m, k] =>
    if d.length = k then
      .ok ((canonEntries s).foldl (matmulStep d)
        (List.replicate m (List.replicate ((d.headD []).length) 0)))
    else .error .DimensionMismatchError
  | _ => .error .DimensionMismatchError

/-- Componentwise window test of slicing (§4.7): `start[i] ≤ c[i] <
start[i] + size[i]` on every axis. -/
def inWindowB (c start size : List Nat) : Bool :=
  (c.zip (start.zip size)).all (fun p => p.2.1 ≤ p.1 && p.1 < p.2.1 + p.2.2)

/-- `slice(t, start, size)`, modelled from the behaviour the notebook
records for `tf.sparse.slice` (cells `sparse_slice_A/B/C`): the operation is
total; the kept region is the window clipped to the tensor's bounds, so
output dimension `i` is `min(size[i], shape[i] - start[i])` (`0` when
`start[i] ≥ shape[i]`, matching the recorded `(8, 0)` result of
`sparse_slice_C`); retained entries are rebased by subtracting `start`. -/
def sparse_slice (t : SparseTensor) (start size : List Nat) : SparseTensor :=
  let kept := (t.indices.zip t.values).filter (fun e => inWindowB e.1 start size)
  ⟨(t.shape.zip (start.zip size)).map (fun p => min p.2.2 (p.1 - p.2.1)),
    kept.map (fun e => (e.1.zip start).map (fun p => p.1 - p.2)),
    kept.map Prod.snd⟩

/-- Coordinate with the reduced axis removed. -/
def removeAxis (axis : Nat) (c : List Nat) : List Nat :=
  c.eraseIdx axis

/-- Modelled from the spec: reduction of one region (§4.8): combines the
explicitly stored entries of the region with `op`, injecting no identity
element; a region with zero explicit entries fails with
`EmptyReductionError`. -/
def reduceRegion (op : Int → Int → Int) (es : List Entry) : Except SparseError Int :=
  match es with
  | [] => .error .EmptyReductionError
  | e :: rest => .ok (rest.foldl (fun acc x => op acc x.2) e.2)

/-- Reduces each output coordinate's region in row-major output order. -/
def reduceLoop (op : Int → Int → Int) (entries : List Entry) (axis : Nat) :
    List (List Nat) → Except SparseError (List Int)
  | [] => .ok []
  | oc :: ocs =>
    match reduceRegion op (entries.filter (fun e => removeAxis axis e.1 == oc)),
        reduceLoop op entries axis ocs with
    | .ok v, .ok vs => .ok (v :: vs)
    | .error er, _ => .error er
    | _, .error er => .error er

/-- Modelled from the spec: the Reducer `reduce(t, axis, op)` (§4.8).  The
output is the dense array over the shape with `axis` removed; each output
value combines only the explicitly stored entries whose remaining
coordinates match, with no implicit identity element contributed by absent
coordinates. -/
def reduce (t : SparseTensor) (axis : Nat) (op : Int → Int → Int) :
    Except SparseError (List Int) :=
  reduceLoop op (t.indices.zip t.values) axis
    ((List.range (prodShape (removeAxis axis t.shape))).map
      (delinearize (removeAxis axis t.shape)))

/-- Python's `str` rendering of an integer list, as produced by
`.numpy().tolist()` in the notebook helper. -/
def pyListStr (l : List Nat) : String :=
  "[" ++ String.intercalate ", " (l.map toString) ++ "]"

/-- The notebook's own pretty-printer, embedded from its source:

```python
def pprint_sparse_tensor(st):
  s = "<SparseTensor shape=%s \n values={" % (st.dense_shape.numpy().tolist(),)
  for (index, value) in zip(st.indices, st.values):
    s += f"\n  %s: %s" % (index.numpy().tolist(), value.numpy().tolist())
  return s + "}>"
```

Note the space before `\n` in the first format string. -/
def pprint_sparse_tensor (st : SparseTensor) : String :=
  ((st.indices.zip st.values).foldl
    (fun s e => s ++ "\n  " ++ pyListStr e.1 ++ ": " ++ toString e.2)
    ("<SparseTensor shape=" ++ pyListStr st.shape ++ " \n values=\x7b")) ++ "\x7d>"

/-- The tensor `st1` of the notebook. -/
def st1 : SparseTensor := ⟨[3, 10], [[0, 3], [2, 4]], [10, 20]⟩

/-- The tensor `st2 = tf.sparse.from_dense([[1,0,0,8],[0,0,0,0],[0,0,3,0]])`
of the notebook (dense array given as shape plus row-major values). -/
def st2 : SparseTensor := from_dense [3, 4] [1, 0, 0, 8, 0, 0, 0, 0, 0, 0, 3, 0]

/-- The tensor `st_a` of the notebook's addition example. -/
def st_a : SparseTensor := ⟨[4, 10], [[0, 2], [3, 4]], [31, 2]⟩

/-- The tensor `st_b` of the notebook's addition example. -/
def st_b : SparseTensor := ⟨[4, 10], [[0, 2], [7, 0]], [56, 38]⟩

/-- The tensor `st_c` of the notebook's matmul example. -/
def st_c : SparseTensor := ⟨[2, 2], [[0, 1], [1, 0], [1, 1]], [13, 15, 17]⟩

/-- The dense matrix `mb` of the notebook's matmul example. -/
def mb : List (List Int) := [[4], [6]]

/-- The tensor `sparse_pattern_B` of the notebook's concat/slice example. -/
def sparse_pattern_B : SparseTensor :=
  ⟨[8, 6],
    [[0, 2], [1, 1], [1, 3], [2, 0], [2, 4], [2, 5], [3, 5],
      [4, 5], [5, 0], [5, 4], [5, 5], [6, 1], [6, 3], [7, 2]],
    [1, 1, 1, 1, 1, 1, 1, 1, 1, 1, 1, 1, 1, 1]⟩

/-- The tensor `sparse_pattern_C` of the notebook's concat/slice example. -/
def sparse_pattern_C : SparseTensor := ⟨[8, 6], [[3, 0], [4, 0]], [1, 1]⟩

/-- The §6 format literal the design document displays for `st1`. -/
def specFormatLiteral : String :=
  "<SparseTensor shape=[3, 10]\n values=\x7b\n  [0, 3]: 10\n  [2, 4]: 20\x7d>"

theorem coordLt_irrefl (c : List Nat) : coordLt c c = false := by
  induction c with
  | nil => rfl
  | cons a as ih => simp [coordLt, ih]

theorem coordLt_trichotomy (c c' : List Nat) :
    c = c' ∨ coordLt c c' = true ∨ coordLt c' c = true := by
  induction c generalizing c' with
  | nil =>
    cases c' with
    | nil => exact Or.inl rfl
    | cons b bs => exact Or.inr (Or.inl rfl)
  | cons a as ih =>
    cases c' with
    | nil => exact Or.inr (Or.inr rfl)
    | cons b bs =>
      rcases Nat.lt_trichotomy a b with h | h | h
      · exact Or.inr (Or.inl (by simp [coordLt, h]))
      · subst h
        rcases ih bs with h2 | h2 | h2
        · exact Or.inl (by rw [h2])
        · exact Or.inr (Or.inl (by simp [coordLt, h2]))
        · exact Or.inr (Or.inr (by simp [coordLt, h2]))
      · exact Or.inr (Or.inr (by simp [coordLt, h]))

theorem coordLt_trans : ∀ {a b c : List Nat},
    coordLt a b = true → coordLt b c = true → coordLt a c = true := by
  intro a
  induction a with
  | nil =>
    intro b c h1 h2
    cases b with
    | nil => simp [coordLt] at h1
    | cons y ys =>
      cases c with
      | nil => simp [coordLt] at h2
      | cons z zs => rfl
  | cons x xs ih =>
    intro b c h1 h2
    cases b with
    | nil => simp [coordLt] at h1
    | cons y ys =>
      cases c with
      | nil => simp [coordLt] at h2
      | cons z zs =>
        simp only [coordLt, Bool.or_eq_true, Bool.and_eq_true, decide_eq_true_eq,
          beq_iff_eq] at h1 h2 ⊢
        rcases h1 with h1 | ⟨rfl, h1⟩
        · rcases h2 with h2 | ⟨rfl, h2⟩
          · exact Or.inl (Nat.lt_trans h1 h2)
          · exact Or.inl h1
        · rcases h2 with h2 | ⟨rfl, h2⟩
          · exact Or.inl h2
          · exact Or.inr ⟨rfl, ih h1 h2⟩

theorem insertEntry_head_cases (x : Entry) (l : List Entry) (b : Entry)
    (hb : (insertEntry x l).head? = some b) :
    b.1 = x.1 ∨ ∃ a, l.head? = some a ∧ b.1 = a.1 := by
  cases l with
  | nil =>
    simp only [insertEntry, List.head?_cons, Option.some.injEq] at hb
    exact Or.inl (by rw [← hb])
  | cons e1 rest =>
    simp only [insertEntry] at hb
    split at hb
    · simp only [List.head?_cons, Option.some.injEq] at hb
      exact Or.inr ⟨e1, rfl, by rw [← hb]⟩
    · split at hb
      · simp only [List.head?_cons, Option.some.injEq] at hb
        exact Or.inl (by rw [← hb])
      · simp only [List.head?_cons, Option.some.injEq] at hb
        exact Or.inr ⟨e1, rfl, by rw [← hb]⟩

theorem chain_insertEntry {x : Entry} {l : List Entry}
    (hl : List.Chain' (fun a b : Entry => coordLt a.1 b.1 = true) l) :
    List.Chain' (fun a b : Entry => coordLt a.1 b.1 = true) (insertEntry x l) := by
  induction l with
  | nil => simp [insertEntry]
  | cons e1 rest ih =>
    rw [List.chain'_cons'] at hl
    obtain ⟨h1, h2⟩ := hl
    simp only [insertEntry]
    split
    · rw [List.chain'_cons']
      exact ⟨h1, h2⟩
    · split
      · rename_i hne hlt
        rw [List.chain'_cons']
        refine ⟨?_, by rw [List.chain'_cons']; exact ⟨h1, h2⟩⟩
        intro y hy
        simp only [List.head?_cons, Option.mem_def, Option.some.injEq] at hy
        rw [← hy]
        exact hlt
      · rename_i hne hnlt
        rw [List.chain'_cons']
        constructor
        · intro b hb
          rcases insertEntry_head_cases x rest b hb with hbx | ⟨a, ha, hba⟩
          · show coordLt e1.1 b.1 = true
            rw [hbx]
            rcases coordLt_trichotomy x.1 e1.1 with h | h | h
            · exact absurd h hne
            · exact absurd h (by simpa using hnlt)
            · exact h
          · show coordLt e1.1 b.1 = true
            rw [hba]
            exact h1 a ha
        · exact ih h2

theorem chain_foldr (l : List Entry) :
    List.Chain' (fun a b : Entry => coordLt a.1 b.1 = true) (l.foldr insertEntry []) := by
  induction l with
  | nil => simp
  | cons x xs ih => exact chain_insertEntry ih

theorem chain_canonEntries (t : SparseTensor) :
    List.Chain' (fun a b : Entry => coordLt a.1 b.1 = true) (canonEntries t) :=
  chain_foldr _

theorem insertEntry_of_lt {x : Entry} {l : List Entry}
    (h : ∀ b ∈ l.head?, coordLt x.1 b.1 = true) : insertEntry x l = x :: l := by
  cases l with
  | nil => rfl
  | cons e1 rest =>
    have hlt : coordLt x.1 e1.1 = true := h e1 rfl
    have hne : ¬ x.1 = e1.1 := by
      intro he
      rw [he, coordLt_irrefl] at hlt
      exact Bool.false_ne_true hlt
    simp [insertEntry, hne, hlt]

theorem foldr_insertEntry_sorted {l : List Entry}
    (hl : List.Chain' (fun a b : Entry => coordLt a.1 b.1 = true) l) :
    l.foldr insertEntry [] = l := by
  induction l with
  | nil => rfl
  | cons x xs ih =>
    rw [List.chain'_cons'] at hl
    obtain ⟨h1, h2⟩ := hl
    rw [List.foldr_cons, ih h2]
    exact insertEntry_of_lt h1

theorem zip_map_fst_snd_entries (l : List Entry) :
    (l.map Prod.fst).zip (l.map Prod.snd) = l := by
  induction l with
  | nil => rfl
  | cons e es ih => simp [ih]

theorem canonEntries_canonicalize (t : SparseTensor) :
    canonEntries (canonicalize t) = canonEntries t := by
  show (((canonEntries t).map Prod.fst).zip ((canonEntries t).map Prod.snd)).foldr
    insertEntry [] = canonEntries t
  rw [zip_map_fst_snd_entries]
  exact foldr_insertEntry_sorted (chain_canonEntries t)

/-- C6: `canonicalize` is idempotent, and the coordinates of `canonicalize t`
are strictly increasing in the canonical row-major lexicographic order, hence
pairwise distinct. -/
theorem canonicalize_idempotent_sorted (t : SparseTensor) :
    canonicalize (canonicalize t) = canonicalize t ∧
      (canonicalize t).indices.Pairwise (fun a b => coordLt a b = true ∧ a ≠ b) := by
  constructor
  · show SparseTensor.mk (canonicalize t).shape _ _ = canonicalize t
    rw [canonEntries_canonicalize]
    rfl
  · haveI : IsTrans Entry (fun a b : Entry => coordLt a.1 b.1 = true) :=
      ⟨fun _ _ _ h1 h2 => coordLt_trans h1 h2⟩
    have hpw : (canonEntries t).Pairwise (fun a b : Entry => coordLt a.1 b.1 = true) :=
      List.chain'_iff_pairwise.1 (chain_canonEntries t)
    show ((canonEntries t).map Prod.fst).Pairwise _
    rw [List.pairwise_map]
    refine hpw.imp ?_
    intro a b h
    refine ⟨h, ?_⟩
    intro he
    rw [he, coordLt_irrefl] at h
    exact Bool.false_ne_true h

theorem valueAt_nil (c : List Nat) : valueAt [] c = 0 := rfl

theorem valueAt_cons (x : Entry) (es : List Entry) (c : List Nat) :
    valueAt (x :: es) c = (if x.1 = c then x.2 else 0) + valueAt es c := by
  by_cases h : x.1 = c
  · simp [valueAt, List.filter_cons, h]
  · simp [valueAt, List.filter_cons, h]

theorem valueAt_insertEntry (x : Entry) (l : List Entry) (c : List Nat) :
    valueAt (insertEntry x l) c = (if x.1 = c then x.2 else 0) + valueAt l c := by
  induction l with
  | nil => rw [show insertEntry x [] = [x] from rfl, valueAt_cons, valueAt_nil]
  | cons e1 rest ih =>
    simp only [insertEntry]
    split
    · rename_i heq
      rw [valueAt_cons, valueAt_cons]
      by_cases hc : e1.1 = c
      · rw [if_pos hc, if_pos hc, if_pos (heq.trans hc)]
        ring
      · rw [if_neg hc, if_neg hc, if_neg (fun h => hc (heq ▸ h))]
        ring
    · split
      · rw [valueAt_cons, valueAt_cons]
      · rw [valueAt_cons, valueAt_cons, ih]
        ring

theorem valueAt_foldr (l : List Entry) (c : List Nat) :
    valueAt (l.foldr insertEntry []) c = valueAt l c := by
  induction l with
  | nil => rfl
  | cons x xs ih => rw [List.foldr_cons, valueAt_insertEntry, valueAt_cons, ih]

theorem valueAt_canonEntries (t : SparseTensor) (c : List Nat) :
    valueAt (canonEntries t) c = denseAt t c :=
  valueAt_foldr _ _

theorem valueAt_mergeUnion (la lb : List Entry) (c : List Nat) :
    valueAt (mergeUnion la lb) c = valueAt la c + valueAt lb c := by
  induction la with
  | nil => rw [show mergeUnion [] lb = lb from rfl, valueAt_nil]; ring
  | cons a as ih =>
    show valueAt (insertEntry a (mergeUnion as lb)) c = _
    rw [valueAt_insertEntry, ih, valueAt_cons]
    ring

theorem valueAt_filter_zero (l : List Entry) (c : List Nat) :
    valueAt (l.filter (fun e => 0 < e.2.natAbs)) c = valueAt l c := by
  induction l with
  | nil => rfl
  | cons x xs ih =>
    rw [List.filter_cons]
    by_cases hx : 0 < x.2.natAbs
    · rw [if_pos (by simpa using hx), valueAt_cons, valueAt_cons, ih]
    · have hx0 : x.2 = 0 := by
        rw [← Int.natAbs_eq_zero]
        omega
      rw [if_neg (by simpa using hx), valueAt_cons, ih, hx0]
      simp

/-- C4, amended: `add` sums the two inputs pointwise — at every coordinate
the dense-equivalent value of the result is the sum of the inputs' values
there (so a coordinate present in both inputs gets the sum and a coordinate
present in exactly one is carried through), with an exact-zero sum elided
under the default threshold rather than stored; the notebook's concrete
example comes out exactly as recorded. -/
theorem sparse_add_pointwise :
    (∀ (a b t' : SparseTensor), sparse_add a b = .ok t' →
        t'.shape = a.shape ∧ ∀ c, denseAt t' c = denseAt a c + denseAt b c) ∧
      sparse_add st_a st_b = .ok ⟨[4, 10], [[0, 2], [3, 4], [7, 0]], [87, 2, 38]⟩ := by
  refine ⟨?_, by decide⟩
  intro a b t' h
  unfold sparse_add sparse_add_thresh at h
  split at h
  · rename_i hsh
    simp only [Except.ok.injEq] at h
    subst h
    refine ⟨rfl, ?_⟩
    intro c
    show valueAt _ c = _
    rw [zip_map_fst_snd_entries, valueAt_filter_zero, valueAt_mergeUnion,
      valueAt_canonEntries, valueAt_canonEntries]
  · exact absurd h (by simp)

/-- C4 counterexample: with the default elision threshold `τ = 0` of §4.4,
a coordinate present in both inputs whose values cancel is dropped from the
output, so the output's coordinate set is not the union of the inputs'
coordinate sets. -/
theorem add_elides_zero_cex :
    sparse_add ⟨[1], [[0]], [3]⟩ ⟨[1], [[0]], [-3]⟩ =
        .ok ⟨[1], [], []⟩ ∧
      [0] ∈ (⟨[1], [[0]], [3]⟩ : SparseTensor).indices ∧
      [0] ∈ (⟨[1], [[0]], [-3]⟩ : SparseTensor).indices := by
  exact ⟨by decide, by decide, by decide⟩

/-- C8: `map_values` keeps shape and indices unchanged and maps only the
stored values; a coordinate absent from `t` stays absent and its
dense-equivalent value stays `0`, whatever `f` does on `0`. -/
theorem map_values_frame (f : Int → Int) (t : SparseTensor) (c : List Nat)
    (hc : c ∉ t.indices) :
    (map_values f t).shape = t.shape ∧ (map_values f t).indices = t.indices ∧
      (map_values f t).values = t.values.map f ∧ c ∉ (map_values f t).indices ∧
      denseAt (map_values f t) c = 0 := by
  refine ⟨rfl, rfl, rfl, hc, ?_⟩
  show valueAt (t.indices.zip (t.values.map f)) c = 0
  unfold valueAt
  rw [List.filter_eq_nil_iff.2 ?_]
  · rfl
  · intro e he hp
    have h1 : e.1 ∈ t.indices := by
      rcases e with ⟨e1, e2⟩
      exact (List.of_mem_zip he).1
    exact hc (by rwa [show e.1 = c from by simpa using hp] at h1)

theorem map_values_frame_witness :
    [1, 1] ∉ st2.indices ∧ (fun v : Int => v + 5) 0 ≠ 0 ∧
      denseAt (map_values (fun v => v + 5) st2) [1, 1] = 0 :=
  ⟨by decide, by decide, (map_values_frame (fun v => v + 5) st2 [1, 1] (by decide)).2.2.2.2⟩

/-- C10: applying `map_values` with `fun v => v + c` is the same sparse
tensor as constructing a new SparseTensor from the unchanged indices, the
values with `c` added to each, and the unchanged shape — identical records,
hence equal dense-equivalent values at every coordinate; concretely, for
`st2` and `c = 5` the dense rendering is exactly the one the notebook
records for both formulations. -/
theorem map_values_add_equiv :
    (∀ (t : SparseTensor) (c : Int),
        map_values (fun v => v + c) t =
          SparseTensor.mk t.shape t.indices (t.values.map (fun v => v + c)) ∧
        ∀ coord, denseAt (map_values (fun v => v + c) t) coord =
          denseAt (SparseTensor.mk t.shape t.indices (t.values.map (fun v => v + c))) coord) ∧
      map_values (fun v => v + 5) st2 =
        SparseTensor.mk st2.shape st2.indices (st2.values.map (fun v => v + 5)) ∧
      to_dense (map_values (fun v => v + 5) st2) =
        [6, 0, 0, 13, 0, 0, 0, 0, 0, 0, 8, 0] :=
  ⟨fun t c => ⟨rfl, fun _ => rfl⟩, rfl, by decide⟩

theorem foldl_max_mem (l : List Entry) (a : Int) :
    l.foldl (fun acc x => max acc x.2) a ∈ a :: l.map Prod.snd := by
  induction l generalizing a with
  | nil => simp
  | cons x xs ih =>
    rw [List.foldl_cons]
    rcases List.mem_cons.1 (ih (max a x.2)) with h | h
    · rw [h]
      rcases max_choice a x.2 with h2 | h2
      · rw [h2]; exact .head _
      · rw [h2]
        exact List.mem_cons_of_mem _ (by simp)
    · exact List.mem_cons_of_mem _ (by simp only [List.map_cons]; exact List.mem_cons_of_mem _ h)

theorem reduceRegion_max_mem {es : List Entry} {v : Int}
    (h : reduceRegion max es = .ok v) : v ∈ es.map Prod.snd := by
  cases es with
  | nil => simp [reduceRegion] at h
  | cons e rest =>
    simp only [reduceRegion, Except.ok.injEq] at h
    subst h
    simpa using foldl_max_mem rest e.2

theorem reduceLoop_max_mem {entries : List Entry} {axis : Nat} {ocs : List (List Nat)}
    {D : List Int} (h : reduceLoop max entries axis ocs = .ok D) :
    ∀ v ∈ D, v ∈ entries.map Prod.snd := by
  induction ocs generalizing D with
  | nil =>
    simp only [reduceLoop, Except.ok.injEq] at h
    subst h
    simp
  | cons oc rest ih =>
    simp only [reduceLoop] at h
    split at h
    · rename_i v0 vs hr hl
      simp only [Except.ok.injEq] at h
      subst h
      intro v hv
      rcases List.mem_cons.1 hv with h2 | h2
      · subst h2
        have hm := reduceRegion_max_mem hr
        rcases List.mem_map.1 hm with ⟨e, he, rfl⟩
        exact List.mem_map_of_mem _ (List.mem_of_mem_filter he)
      · exact ih hl v h2
    · exact absurd h (by simp)
    · exact absurd h (by simp)

/-- C1: reduction combines only the explicitly stored entries — for
`reduce_max` every value of the output is one of the tensor's stored values,
so an absent coordinate never contributes an implicit `0`; in particular
`reduce_max` over the single axis of `from_dense([-5, 0, -3])` returns `-3`,
not `0`. -/
theorem reduce_only_explicit :
    (∀ (t : SparseTensor) (axis : Nat) (D : List Int),
        reduce t axis max = .ok D → ∀ v ∈ D, v ∈ t.values) ∧
      reduce (from_dense [3] [-5, 0, -3]) 0 max = .ok [-3] := by
  constructor
  · intro t axis D h v hv
    unfold reduce at h
    have hm := reduceLoop_max_mem h v hv
    rcases List.mem_map.1 hm with ⟨e, he, rfl⟩
    rcases e with ⟨c, w⟩
    exact (List.of_mem_zip he).2
  · decide

theorem reduce_only_explicit_witness :
    reduce (from_dense [3] [-5, 0, -3]) 0 max = .ok [-3] ∧
      (-3 : Int) ∈ (from_dense [3] [-5, 0, -3]).values :=
  ⟨by decide, reduce_only_explicit.1 (from_dense [3] [-5, 0, -3]) 0 [-3] (by decide) (-3)
    (by decide)⟩

/-- C7 counterexample: the notebook's `pprint_sparse_tensor` does not
produce the §6 literal exactly: its first format string is
`"<SparseTensor shape=%s \n values={"`, so the rendered first line carries a
trailing space after the shape which the specification's literal block
lacks. -/
theorem pprint_trailing_space_cex : pprint_sparse_tensor st1 ≠ specFormatLiteral := by
  decide

/-- C7, amended: `format` of `construct([3,10], [[0,3],[2,4]], [10,20])`
produces the §6 literal except that the first line ends with a trailing
space after `shape=[3, 10]`: one line per stored pair in stored order,
closing with the brace-angle pair on the last pair's line (exactly the
string the notebook's own output cell records). -/
theorem pprint_st1_format :
    make [3, 10] [[0, 3], [2, 4]] [10, 20] = .ok st1 ∧
      pprint_sparse_tensor st1 =
        "<SparseTensor shape=[3, 10] \n values=\x7b\n  [0, 3]: 10\n  [2, 4]: 20\x7d>" :=
  ⟨by decide, rfl⟩

theorem getElem?_zip {α β : Type} {l1 : List α} {l2 : List β} {i : Nat} {a : α} {b : β}
    (h1 : l1[i]? = some a) (h2 : l2[i]? = some b) : (l1.zip l2)[i]? = some (a, b) := by
  induction l1 generalizing l2 i with
  | nil => simp at h1
  | cons x xs ih =>
    cases l2 with
    | nil => simp at h2
    | cons y ys =>
      cases i with
      | zero =>
        simp only [List.getElem?_cons_zero, Option.some.injEq] at h1 h2
        simp [List.zip_cons_cons, h1, h2]
      | succ n =>
        simp only [List.getElem?_cons_succ] at h1 h2
        simpa [List.zip_cons_cons] using ih h1 h2

theorem inBoundsB_length : ∀ {c s : List Nat}, inBoundsB c s = true → c.length = s.length := by
  intro c
  induction c with
  | nil =>
    intro s h
    cases s with
    | nil => rfl
    | cons y ys => simp [inBoundsB] at h
  | cons x xs ih =>
    intro s h
    cases s with
    | nil => simp [inBoundsB] at h
    | cons y ys =>
      simp only [inBoundsB, Bool.and_eq_true] at h
      simp [ih h.2]

theorem inBoundsB_getElem? : ∀ {co s : List Nat}, inBoundsB co s = true →
    ∀ {i : Nat} {a d : Nat}, co[i]? = some a → s[i]? = some d → a < d := by
  intro co
  induction co with
  | nil =>
    intro s h i a d h1 h2
    simp at h1
  | cons x xs ih =>
    intro s h i a d h1 h2
    cases s with
    | nil => simp [inBoundsB] at h
    | cons y ys =>
      simp only [inBoundsB, Bool.and_eq_true, decide_eq_true_eq] at h
      cases i with
      | zero =>
        simp only [List.getElem?_cons_zero, Option.some.injEq] at h1 h2
        omega
      | succ n =>
        simp only [List.getElem?_cons_succ] at h1 h2
        exact ih h.2 h1 h2

theorem inWindowB_getElem? {co start size : List Nat} (h : inWindowB co start size = true)
    {i : Nat} {a st sz : Nat} (h1 : co[i]? = some a) (h2 : start[i]? = some st)
    (h3 : size[i]? = some sz) : st ≤ a ∧ a < st + sz := by
  unfold inWindowB at h
  have hm : (a, (st, sz)) ∈ co.zip (start.zip size) :=
    List.getElem?_mem (getElem?_zip h1 (getElem?_zip h2 h3))
  have := List.all_eq_true.1 h _ hm
  simpa using this

/-- C2 counterexample: with `start = [0, 5]`, `size = [8, 6]` on
`sparse_pattern_B` of shape `[8, 6]`, the claimed failure condition
`start[1] + size[1] > shape[1]` holds (`5 + 6 > 6`), yet `slice` does not
fail: it returns the clipped tensor of shape `[8, 1]` whose dense rendering
is exactly the notebook's recorded output for `sparse_slice_B`. -/
theorem slice_overrun_no_error_cex :
    sparse_slice sparse_pattern_B [0, 5] [8, 6] =
        ⟨[8, 1], [[2, 0], [3, 0], [4, 0], [5, 0]], [1, 1, 1, 1]⟩ ∧
      to_dense (sparse_slice sparse_pattern_B [0, 5] [8, 6]) = [0, 0, 1, 1, 1, 1, 0, 0] ∧
      5 + 6 > 6 :=
  ⟨by decide, by decide, by decide⟩

/-- C2, amended: `slice` does not fail when `start[i] + size[i]` exceeds
`shape[i]`; it is total, keeps indices and values aligned, and every
retained index is the componentwise rebase by `start` of an index of `t`
lying inside the `[start, start + size)` window (the window being clipped to
the tensor's bounds, as the shape formula of the slice shows). -/
theorem slice_clips_amended (t : SparseTensor) (start size : List Nat) (c : List Nat)
    (hc : c ∈ (sparse_slice t start size).indices) :
    (sparse_slice t start size).indices.length = (sparse_slice t start size).values.length ∧
      ∃ c0, c0 ∈ t.indices ∧ inWindowB c0 start size = true ∧
        c = (c0.zip start).map (fun p => p.1 - p.2) := by
  constructor
  · show (List.map _ _).length = (List.map _ _).length
    rw [List.length_map, List.length_map]
  · rcases List.mem_map.1 hc with ⟨e, he, hce⟩
    have hf := List.mem_filter.1 he
    rcases e with ⟨c0, v⟩
    exact ⟨c0, (List.of_mem_zip hf.1).1, by simpa using hf.2, hce.symm⟩

theorem slice_clips_amended_witness :
    [2, 0] ∈ (sparse_slice sparse_pattern_B [0, 5] [8, 6]).indices ∧
      ((sparse_slice sparse_pattern_B [0, 5] [8, 6]).indices.length =
          (sparse_slice sparse_pattern_B [0, 5] [8, 6]).values.length ∧
        ∃ c0, c0 ∈ sparse_pattern_B.indices ∧ inWindowB c0 [0, 5] [8, 6] = true ∧
          [2, 0] = (c0.zip [0, 5]).map (fun p => p.1 - p.2)) :=
  ⟨by decide, slice_clips_amended sparse_pattern_B [0, 5] [8, 6] [2, 0] (by decide)⟩

/-- C9: `slice` is total on the model: for any axis `i`, the output
dimension is `min(size[i], shape[i] - start[i])`, and when `start[i]`
equals `shape[i]` the result is a valid empty tensor (no stored entries,
width `0` on that axis). -/
theorem slice_total_clip (t : SparseTensor) (start size : List Nat) (i : Nat)
    (dv stv szv : Nat)
    (hwf : ∀ c ∈ t.indices, inBoundsB c t.shape = true)
    (hd : t.shape[i]? = some dv) (hs : start[i]? = some stv)
    (hz : size[i]? = some szv) :
    (sparse_slice t start size).shape[i]? = some (min szv (dv - stv)) ∧
      (stv = dv → (sparse_slice t start size).indices = []) := by
  constructor
  · show ((t.shape.zip (start.zip size)).map _)[i]? = _
    rw [List.getElem?_map, getElem?_zip hd (getElem?_zip hs hz)]
    rfl
  · intro hstdv
    show (((t.indices.zip t.values).filter _).map _) = []
    refine List.map_eq_nil_iff.2 (List.filter_eq_nil_iff.2 ?_)
    intro e he hw
    have hb : inBoundsB e.1 t.shape = true := by
      rcases e with ⟨c0, v⟩
      exact hwf c0 (List.of_mem_zip he).1
    have hlen := inBoundsB_length hb
    have hish : i < t.shape.length := by
      by_contra hcon
      rw [List.getElem?_eq_none (by omega)] at hd
      exact Option.noConfusion hd
    have hilt : i < e.1.length := by omega
    have he1 : e.1[i]? = some (e.1[i]) := List.getElem?_eq_getElem hilt
    have hbd := inBoundsB_getElem? hb he1 hd
    have hwin := inWindowB_getElem? (by simpa using hw) he1 hs hz
    omega

theorem slice_total_clip_witness :
    (sparse_slice sparse_pattern_C [0, 6] [8, 6]).shape[1]? = some 0 ∧
      (sparse_slice sparse_pattern_C [0, 6] [8, 6]).indices = [] := by
  have h := slice_total_clip sparse_pattern_C [0, 6] [8, 6] 1 6 6 6 (by decide)
    (by decide) (by decide) (by decide)
  exact ⟨h.1, h.2 rfl⟩

theorem prodShape_pos : ∀ {co s : List Nat}, inBoundsB co s = true → 0 < prodShape s := by
  intro co
  induction co with
  | nil =>
    intro s h
    cases s with
    | nil => simp [prodShape]
    | cons d s1 => simp [inBoundsB] at h
  | cons a as ih =>
    intro s h
    cases s with
    | nil => simp [inBoundsB] at h
    | cons d s1 =>
      simp only [inBoundsB, Bool.and_eq_true, decide_eq_true_eq] at h
      simp only [prodShape]
      exact Nat.mul_pos (by omega) (ih h.2)

theorem linearize_lt_prodShape : ∀ {co s : List Nat}, inBoundsB co s = true →
    linearize s co < prodShape s := by
  intro co
  induction co with
  | nil =>
    intro s h
    cases s with
    | nil => simp [linearize, prodShape]
    | cons d s1 => simp [inBoundsB] at h
  | cons a as ih =>
    intro s h
    cases s with
    | nil => simp [inBoundsB] at h
    | cons d s1 =>
      simp only [inBoundsB, Bool.and_eq_true, decide_eq_true_eq] at h
      obtain ⟨h1, h2⟩ := h
      have hr := ih h2
      simp only [linearize, prodShape]
      calc a * prodShape s1 + linearize s1 as < a * prodShape s1 + prodShape s1 := by omega
        _ = (a + 1) * prodShape s1 := by ring
        _ ≤ d * prodShape s1 := Nat.mul_le_mul_right _ (by omega)

theorem delinearize_linearize : ∀ {co s : List Nat}, inBoundsB co s = true →
    delinearize s (linearize s co) = co := by
  intro co
  induction co with
  | nil =>
    intro s h
    cases s with
    | nil => rfl
    | cons d s1 => simp [inBoundsB] at h
  | cons a as ih =>
    intro s h
    cases s with
    | nil => simp [inBoundsB] at h
    | cons d s1 =>
      simp only [inBoundsB, Bool.and_eq_true, decide_eq_true_eq] at h
      obtain ⟨h1, h2⟩ := h
      have hP : 0 < prodShape s1 := prodShape_pos h2
      have hlt : linearize s1 as < prodShape s1 := linearize_lt_prodShape h2
      simp only [linearize, delinearize]
      have hdiv : (a * prodShape s1 + linearize s1 as) / prodShape s1 = a := by
        rw [Nat.mul_comm a, Nat.mul_add_div hP, Nat.div_eq_of_lt hlt]
        omega
      have hmod : (a * prodShape s1 + linearize s1 as) % prodShape s1 = linearize s1 as := by
        rw [Nat.mul_comm a, Nat.mul_add_mod, Nat.mod_eq_of_lt hlt]
      rw [hdiv, hmod, ih h2]

theorem linearize_lt_of_coordLt : ∀ {co co' s : List Nat}, inBoundsB co s = true →
    inBoundsB co' s = true → coordLt co co' = true → linearize s co < linearize s co' := by
  intro co
  induction co with
  | nil =>
    intro co' s h h' hlt
    cases s with
    | nil =>
      cases co' with
      | nil => simp [coordLt] at hlt
      | cons b bs => simp [inBoundsB] at h'
    | cons d s1 => simp [inBoundsB] at h
  | cons a as ih =>
    intro co' s h h' hlt
    cases s with
    | nil => simp [inBoundsB] at h
    | cons d s1 =>
      cases co' with
      | nil => simp [inBoundsB] at h'
      | cons b bs =>
        simp only [inBoundsB, Bool.and_eq_true, decide_eq_true_eq] at h h'
        simp only [coordLt, Bool.or_eq_true, Bool.and_eq_true, decide_eq_true_eq,
          beq_iff_eq] at hlt
        simp only [linearize]
        rcases hlt with hab | ⟨hab, hrec⟩
        · have hL : linearize s1 as < prodShape s1 := linearize_lt_prodShape h.2
          calc a * prodShape s1 + linearize s1 as < (a + 1) * prodShape s1 := by
                have : (a + 1) * prodShape s1 = a * prodShape s1 + prodShape s1 := by ring
                omega
            _ ≤ b * prodShape s1 := Nat.mul_le_mul_right _ (by omega)
            _ ≤ b * prodShape s1 + linearize s1 bs := Nat.le_add_right _ _
        · subst hab
          have := ih h.2 h'.2 hrec
          omega

theorem scatter_length (s : List Nat) (es : List Entry) (D0 : List Int) :
    (es.foldl (fun d e => d.set (linearize s e.1) e.2) D0).length = D0.length := by
  induction es generalizing D0 with
  | nil => rfl
  | cons e rest ih => rw [List.foldl_cons, ih, List.length_set]

theorem denseGet_cons_self {s : List Nat} {e : Entry} {es : List Entry} {k : Nat}
    (h : linearize s e.1 = k) : denseGet s (e :: es) k = e.2 := by
  simp [denseGet, List.find?_cons, h]

theorem denseGet_cons_ne {s : List Nat} {e : Entry} {es : List Entry} {k : Nat}
    (h : ¬ linearize s e.1 = k) : denseGet s (e :: es) k = denseGet s es k := by
  simp [denseGet, List.find?_cons, h]

theorem scatter_getElem? (s : List Nat) (es : List Entry) (D0 : List Int)
    (hlen : ∀ e ∈ es, linearize s e.1 < D0.length)
    (hdist : es.Pairwise (fun a b => linearize s a.1 ≠ linearize s b.1)) (i : Nat) :
    (es.foldl (fun d e => d.set (linearize s e.1) e.2) D0)[i]? =
      match es.find? (fun e => linearize s e.1 == i) with
      | some e => some e.2
      | none => D0[i]? := by
  induction es generalizing D0 with
  | nil => rfl
  | cons e rest ih =>
    rw [List.foldl_cons]
    rw [ih (D0.set (linearize s e.1) e.2)
      (fun x hx => by rw [List.length_set]; exact hlen x (List.mem_cons_of_mem _ hx))
      (List.Pairwise.of_cons hdist)]
    have hpc := List.pairwise_cons.1 hdist
    by_cases hi : linearize s e.1 = i
    · have hfr : rest.find? (fun x => linearize s x.1 == i) = none := by
        rw [List.find?_eq_none]
        intro x hx
        simp only [beq_iff_eq]
        intro hxi
        exact hpc.1 x hx (by omega)
      have hfe : (e :: rest).find? (fun x => linearize s x.1 == i) = some e := by
        simp [List.find?_cons, hi]
      rw [hfr, hfe]
      rw [← hi]
      exact List.getElem?_set_eq_of_lt _ (hlen e (List.mem_cons_self _ _))
    · have hfe : (e :: rest).find? (fun x => linearize s x.1 == i) =
          rest.find? (fun x => linearize s x.1 == i) := by
        simp [List.find?_cons, hi]
      rw [hfe]
      cases hf : rest.find? (fun x => linearize s x.1 == i) with
      | some x => rfl
      | none =>
        show (D0.set (linearize s e.1) e.2)[i]? = D0[i]?
        exact List.getElem?_set_ne hi

theorem fromDenseEntries_eq (s : List Nat) :
    ∀ (D : List Int) (i : Nat) (es : List Entry),
      (∀ j, j < D.length → D[j]? = some (denseGet s es (i + j))) →
      es.Pairwise (fun a b => linearize s a.1 < linearize s b.1) →
      (∀ e ∈ es, i ≤ linearize s e.1 ∧ linearize s e.1 < i + D.length) →
      (∀ e ∈ es, e.2 ≠ 0) →
      (∀ e ∈ es, delinearize s (linearize s e.1) = e.1) →
      fromDenseEntries s i D = es := by
  intro D
  induction D with
  | nil =>
    intro i es hget hpw hrange hnz hdelin
    cases es with
    | nil => rfl
    | cons e es1 =>
      have := hrange e (List.mem_cons_self _ _)
      simp only [List.length_nil] at this
      omega
  | cons v D1 ih =>
    intro i es hget hpw hrange hnz hdelin
    have hv : v = denseGet s es i := by
      have h0 := hget 0 (by simp)
      simp only [List.getElem?_cons_zero, Option.some.injEq, Nat.add_zero] at h0
      exact h0
    cases es with
    | nil =>
      have hv0 : v = 0 := by rw [hv]; rfl
      have hstep : fromDenseEntries s i (v :: D1) = fromDenseEntries s (i + 1) D1 := by
        simp [fromDenseEntries, hv0]
      rw [hstep]
      refine ih (i + 1) [] ?_ (by simp) (by simp) (by simp) (by simp)
      intro j hj
      have hg := hget (j + 1) (by simp only [List.length_cons]; omega)
      simp only [List.getElem?_cons_succ] at hg
      rw [hg]
      rfl
    | cons e es1 =>
      by_cases hlin : linearize s e.1 = i
      · have hv' : v = e.2 := by rw [hv]; exact denseGet_cons_self hlin
        have hvne : v ≠ 0 := by rw [hv']; exact hnz e (List.mem_cons_self _ _)
        have hstep : fromDenseEntries s i (v :: D1) =
            (delinearize s i, v) :: fromDenseEntries s (i + 1) D1 := by
          simp [fromDenseEntries, hvne]
        rw [hstep]
        have hhead : (delinearize s i, v) = e := by
          have hd := hdelin e (List.mem_cons_self _ _)
          rw [← hlin, hd, hv']
        rw [hhead]
        have htail : fromDenseEntries s (i + 1) D1 = es1 := by
          refine ih (i + 1) es1 ?_ (List.Pairwise.of_cons hpw) ?_
            (fun x hx => hnz x (List.mem_cons_of_mem _ hx))
            (fun x hx => hdelin x (List.mem_cons_of_mem _ hx))
          · intro j hj
            have hg := hget (j + 1) (by simp only [List.length_cons]; omega)
            simp only [List.getElem?_cons_succ] at hg
            rw [denseGet_cons_ne (by omega)] at hg
            rw [show i + 1 + j = i + (j + 1) from by omega]
            exact hg
          · intro x hx
            have h1 := hrange x (List.mem_cons_of_mem _ hx)
            have h2 := (List.pairwise_cons.1 hpw).1 x hx
            simp only [List.length_cons] at h1
            omega
        rw [htail]
      · have hgt : ∀ x ∈ e :: es1, i < linearize s x.1 := by
          intro x hx
          rcases List.mem_cons.1 hx with rfl | hx1
          · have := (hrange x (List.mem_cons_self _ _)).1
            omega
          · have h2 := (List.pairwise_cons.1 hpw).1 x hx1
            have h3 := (hrange e (List.mem_cons_self _ _)).1
            omega
        have hv0 : v = 0 := by
          rw [hv]
          have hfind : (e :: es1).find? (fun x => linearize s x.1 == i) = none := by
            rw [List.find?_eq_none]
            intro x hx
            simp only [beq_iff_eq]
            exact fun hxi => absurd hxi (Nat.ne_of_gt (hgt x hx))
          simp [denseGet, hfind]
        have hstep : fromDenseEntries s i (v :: D1) = fromDenseEntries s (i + 1) D1 := by
          simp [fromDenseEntries, hv0]
        rw [hstep]
        refine ih (i + 1) (e :: es1) ?_ hpw ?_ hnz hdelin
        · intro j hj
          have hg := hget (j + 1) (by simp only [List.length_cons]; omega)
          simp only [List.getElem?_cons_succ] at hg
          rw [show i + 1 + j = i + (j + 1) from by omega]
          exact hg
        · intro x hx
          have h1 := hrange x hx
          have h2 := hgt x hx
          simp only [List.length_cons] at h1
          omega

theorem mem_fst_insertEntry {x e : Entry} : ∀ {l : List Entry},
    e ∈ insertEntry x l → e.1 = x.1 ∨ ∃ y ∈ l, e.1 = y.1 := by
  intro l
  induction l with
  | nil =>
    intro he
    simp only [insertEntry, List.mem_singleton] at he
    exact Or.inl (by rw [he])
  | cons e1 rest ih =>
    intro he
    simp only [insertEntry] at he
    split at he
    · rcases List.mem_cons.1 he with h | h
      · exact Or.inr ⟨e1, List.mem_cons_self _ _, by rw [h]⟩
      · exact Or.inr ⟨e, List.mem_cons_of_mem _ h, rfl⟩
    · split at he
      · rcases List.mem_cons.1 he with h | h
        · exact Or.inl (by rw [h])
        · exact Or.inr ⟨e, by rwa [List.mem_cons] at h ⊢, rfl⟩
      · rcases List.mem_cons.1 he with h | h
        · exact Or.inr ⟨e1, List.mem_cons_self _ _, by rw [h]⟩
        · rcases ih h with h2 | ⟨y, hy, hey⟩
          · exact Or.inl h2
          · exact Or.inr ⟨y, List.mem_cons_of_mem _ hy, hey⟩

theorem mem_fst_canonEntries {t : SparseTensor} {e : Entry} (he : e ∈ canonEntries t) :
    e.1 ∈ t.indices := by
  have hgen : ∀ (l : List Entry) (x : Entry), x ∈ l.foldr insertEntry [] →
      ∃ y ∈ l, x.1 = y.1 := by
    intro l
    induction l with
    | nil => intro x hx; simp at hx
    | cons a as ih =>
      intro x hx
      rw [List.foldr_cons] at hx
      rcases mem_fst_insertEntry hx with h | ⟨y, hy, hxy⟩
      · exact ⟨a, List.mem_cons_self _ _, h⟩
      · rcases ih y hy with ⟨z, hz, hyz⟩
        exact ⟨z, List.mem_cons_of_mem _ hz, by rw [hxy, hyz]⟩
  rcases hgen _ e he with ⟨y, hy, hey⟩
  rw [hey]
  rcases y with ⟨c0, v0⟩
  exact (List.of_mem_zip hy).1

theorem canon_roundtrip_core (s : List Nat) (es : List Entry)
    (hchain : List.Chain' (fun a b : Entry => coordLt a.1 b.1 = true) es)
    (hbd : ∀ e ∈ es, inBoundsB e.1 s = true)
    (hnz : ∀ e ∈ es, e.2 ≠ 0) :
    fromDenseEntries s 0
      (es.foldl (fun d e => d.set (linearize s e.1) e.2)
        (List.replicate (prodShape s) 0)) = es := by
  haveI : IsTrans Entry (fun a b : Entry => coordLt a.1 b.1 = true) :=
    ⟨fun _ _ _ h1 h2 => coordLt_trans h1 h2⟩
  have hpwc : es.Pairwise (fun a b : Entry => coordLt a.1 b.1 = true) :=
    List.chain'_iff_pairwise.1 hchain
  have hpwlt : es.Pairwise (fun a b => linearize s a.1 < linearize s b.1) :=
    List.Pairwise.imp_of_mem
      (fun ha hb h => linearize_lt_of_coordLt (hbd _ ha) (hbd _ hb) h) hpwc
  have hlt : ∀ e ∈ es, linearize s e.1 < prodShape s :=
    fun e he => linearize_lt_prodShape (hbd e he)
  have hDlen : (es.foldl (fun d e => d.set (linearize s e.1) e.2)
      (List.replicate (prodShape s) 0)).length = prodShape s := by
    rw [scatter_length, List.length_replicate]
  refine fromDenseEntries_eq s _ 0 es ?_ hpwlt ?_ hnz
    (fun e he => delinearize_linearize (hbd e he))
  · intro j hj
    rw [hDlen] at hj
    rw [scatter_getElem? s es _ (fun e he => by rw [List.length_replicate]; exact hlt e he)
      (hpwlt.imp (fun h => Nat.ne_of_lt h)) j]
    simp only [Nat.zero_add]
    cases hf : es.find? (fun e => linearize s e.1 == j) with
    | some x => simp [denseGet, hf]
    | none => simp [denseGet, hf, List.getElem?_replicate_of_lt hj]
  · intro e he
    refine ⟨Nat.zero_le _, ?_⟩
    rw [hDlen]
    simpa using hlt e he

/-- C3, amended: for a valid tensor `t` such that `canonicalize t` stores no
explicit zero value, the dense round trip is the identity on the canonical
form: `from_dense (to_dense (canonicalize t)) = canonicalize t`. -/
theorem from_to_dense_roundtrip (t : SparseTensor)
    (hwf : ∀ cc ∈ t.indices, inBoundsB cc t.shape = true)
    (hnz : ∀ v ∈ (canonicalize t).values, v ≠ 0) :
    from_dense t.shape (to_dense (canonicalize t)) = canonicalize t := by
  have hbd : ∀ e ∈ canonEntries t, inBoundsB e.1 t.shape = true :=
    fun e he => hwf e.1 (mem_fst_canonEntries he)
  have hnz' : ∀ e ∈ canonEntries t, e.2 ≠ 0 :=
    fun e he => hnz e.2 (List.mem_map_of_mem Prod.snd he)
  have hcore := canon_roundtrip_core t.shape (canonEntries t) (chain_canonEntries t) hbd hnz'
  have htd : to_dense (canonicalize t) =
      (canonEntries t).foldl (fun d e => d.set (linearize t.shape e.1) e.2)
        (List.replicate (prodShape t.shape) 0) := by
    unfold to_dense
    rw [canonEntries_canonicalize]
    rfl
  show SparseTensor.mk t.shape
      ((fromDenseEntries t.shape 0 (to_dense (canonicalize t))).map Prod.fst)
      ((fromDenseEntries t.shape 0 (to_dense (canonicalize t))).map Prod.snd) =
    canonicalize t
  rw [htd, hcore]
  rfl

/-- C3 counterexample: the tensor `⟨[1], [[0], [0]], [3, -3]⟩` stores no
explicit zero value, yet the duplicate coordinate sums to `0` under
canonicalization, dense conversion drops that cell, and the round trip does
not reproduce `canonicalize t`. -/
theorem roundtrip_cancellation_cex :
    (∀ v ∈ (⟨[1], [[0], [0]], [3, -3]⟩ : SparseTensor).values, v ≠ 0) ∧
      (∀ cc ∈ (⟨[1], [[0], [0]], [3, -3]⟩ : SparseTensor).indices, inBoundsB cc [1] = true) ∧
      from_dense [1] (to_dense (canonicalize ⟨[1], [[0], [0]], [3, -3]⟩)) ≠
        canonicalize ⟨[1], [[0], [0]], [3, -3]⟩ :=
  ⟨by decide, by decide, by decide⟩

theorem from_to_dense_roundtrip_witness :
    (∀ cc ∈ st2.indices, inBoundsB cc st2.shape = true) ∧
      (∀ v ∈ (canonicalize st2).values, v ≠ 0) ∧
      from_dense st2.shape (to_dense (canonicalize st2)) = canonicalize st2 :=
  ⟨by decide, by decide, from_to_dense_roundtrip st2 (by decide) (by decide)⟩

theorem matmulStep_preserves (d : List (List Int)) (p : Nat)
    (hd : ∀ row ∈ d, row.length = p) (out : List (List Int)) (e : Entry)
    (hout : ∀ r ∈ out, r.length = p) :
    (matmulStep d out e).length = out.length ∧ ∀ r ∈ matmulStep d out e, r.length = p := by
  unfold matmulStep
  split
  · split
    · rename_i i j r0 row hr0 hrow
      refine ⟨List.length_set _ _ _, ?_⟩
      intro r hr
      rcases List.mem_or_eq_of_mem_set hr with h | h
      · exact hout r h
      · rw [h, List.length_zipWith, List.length_map]
        rw [hout r0 (List.getElem?_mem (by simpa using hr0)),
          hd row (List.getElem?_mem (by simpa using hrow))]
        exact Nat.min_self p
    · exact ⟨rfl, hout⟩
  · exact ⟨rfl, hout⟩

theorem matmul_fold_preserves (d : List (List Int)) (p : Nat)
    (hd : ∀ row ∈ d, row.length = p) :
    ∀ (es : List Entry) (out : List (List Int)), (∀ r ∈ out, r.length = p) →
      (es.foldl (matmulStep d) out).length = out.length ∧
        ∀ r ∈ es.foldl (matmulStep d) out, r.length = p := by
  intro es
  induction es with
  | nil => exact fun out hout => ⟨rfl, hout⟩
  | cons e rest ih =>
    intro out hout
    rw [List.foldl_cons]
    have hstep := matmulStep_preserves d p hd out e hout
    have hrec := ih (matmulStep d out e) hstep.2
    exact ⟨hrec.1.trans hstep.1, hrec.2⟩

/-- C5: `sparse_dense_matmul` of a sparse `[m, k]` tensor with a dense
matrix of uniform row width returns a dense matrix with `m` rows of that
width, built by accumulating `v * d[j, :]` into row `i` per stored entry of
the canonicalized operand; the notebook's concrete product is exactly
`[[78], [162]]`. -/
theorem matmul_accumulates :
    (∀ (s : SparseTensor) (d : List (List Int)) (m k : Nat) (out : List (List Int)),
        s.shape = [m, k] → (∀ row ∈ d, row.length = (d.headD []).length) →
        sparse_dense_matmul s d = .ok out →
        out.length = m ∧ ∀ r ∈ out, r.length = (d.headD []).length) ∧
      make [2, 2] [[0, 1], [1, 0], [1, 1]] [13, 15, 17] = .ok st_c ∧
      sparse_dense_matmul st_c mb = .ok [[78], [162]] := by
  refine ⟨?_, by decide, by decide⟩
  intro s d m k out hsh hd h
  unfold sparse_dense_matmul at h
  rw [hsh] at h
  have h2 : (if d.length = k then
      Except.ok ((canonEntries s).foldl (matmulStep d)
        (List.replicate m (List.replicate ((d.headD []).length) 0)))
    else (Except.error SparseError.DimensionMismatchError :
      Except SparseError (List (List Int)))) = .ok out := h
  split at h2
  · simp only [Except.ok.injEq] at h2
    subst h2
    have hfold := matmul_fold_preserves d ((d.headD []).length) hd (canonEntries s)
      (List.replicate m (List.replicate ((d.headD []).length) 0))
      (fun r hr => by rw [List.eq_of_mem_replicate hr]; exact List.length_replicate _ _)
    exact ⟨hfold.1.trans (List.length_replicate _ _), hfold.2⟩
  · exact absurd h2 (by simp)

theorem matmul_accumulates_witness :
    st_c.shape = [2, 2] ∧ (∀ row ∈ mb, row.length = (mb.headD []).length) ∧
      sparse_dense_matmul st_c mb = .ok [[78], [162]] ∧
      ([[78], [162]] : List (List Int)).length = 2 ∧
      ∀ r ∈ ([[78], [162]] : List (List Int)), r.length = (mb.headD []).length := by
  have h := matmul_accumulates.1 st_c mb 2 2 [[78], [162]] rfl (by decide) (by decide)
  exact ⟨rfl, by decide, by decide, h.1, h.2⟩

theorem sparse_add_pointwise_witness :
    sparse_add st_a st_b = .ok ⟨[4, 10], [[0, 2], [3, 4], [7, 0]], [87, 2, 38]⟩ ∧
      (⟨[4, 10], [[0, 2], [3, 4], [7, 0]], [87, 2, 38]⟩ : SparseTensor).shape = st_a.shape ∧
      denseAt ⟨[4, 10], [[0, 2], [3, 4], [7, 0]], [87, 2, 38]⟩ [0, 2] =
        denseAt st_a [0, 2] + denseAt st_b [0, 2] := by
  have h := sparse_add_pointwise.1 st_a st_b
    ⟨[4, 10], [[0, 2], [3, 4], [7, 0]], [87, 2, 38]⟩ (by decide)
  exact ⟨by decide, h.1, h.2 [0, 2]⟩

end TfSparse
